import Mathlib

/-!
Verification of the ssmm market-making core against its specification.

The definitions below are shallow embeddings of the Python sources:
* `calculate_adaptive_price` embeds `mm.calculate_adaptive_price` (src/mm.py,
  lines 403-472).  Python floats are modelled as `ℚ`; Python `int()` truncation
  toward zero is `pyInt`.  The function returns `Option ℤ`: `some p` is a
  normal return (`p = -1` is the BACK_OFF sentinel), `none` models the
  `NameError` raised on the ask side where the unbound name `must_quote` is
  evaluated.
* `calculate_theo` embeds `mm.calculate_theo` (src/mm.py, lines 387-400);
  Python `round(x, 1)` (banker's rounding to one decimal) is `pyRound1`.
-/

/-- Python `int()` on a float: truncation toward zero. -/
def pyInt (q : ℚ) : ℤ := if q < 0 then ⌈q⌉ else ⌊q⌋

/-- Side of the quote: "bid" or "ask" in the source. -/
inductive Side where
  | bid
  | ask
deriving DecidableEq

/-- Embedding of `mm.calculate_adaptive_price`.  Source, bid branch:
`ceiling = int(theo - edge_min)`; if we are at the top of the book the target
is `current + 1` on a tie below the ceiling, `current` when sticky and not
retesting, else `second + 1` (or 1); a leading competitor is outbid by one or
answered with `-1` when above the ceiling; the return value is
`max(1, min(ceiling, target))`.  The ask branch is the mirror image except
that its two back-off sites evaluate the unbound name `must_quote`, which
raises `NameError`; those two sites are modelled as `none`. -/
def calculate_adaptive_price (theo : ℚ) (best_price second_price : ℤ)
    (side : Side) (edge_min : ℚ) (our_current : Option ℤ)
    (sticky_ceiling is_retest : Bool) (best_qty our_size : ℤ) : Option ℤ :=
  match side with
  | .bid =>
    let ceiling := pyInt (theo - edge_min)
    match our_current with
    | some cur =>
      if best_price = cur then
        let target :=
          if best_qty > our_size ∧ cur < ceiling then cur + 1
          else if sticky_ceiling ∧ ¬is_retest then cur
          else if second_price > 0 then second_price + 1 else 1
        some (max 1 (min ceiling target))
      else if best_price > cur then
        if best_price > ceiling then some (-1)
        else some (max 1 (min ceiling (best_price + 1)))
      else
        if best_price > ceiling then some (-1)
        else some (max 1 (min ceiling (best_price + 1)))
    | none =>
      if best_price > ceiling then some (-1)
      else some (max 1 (min ceiling (best_price + 1)))
  | .ask =>
    let lo := pyInt (theo + edge_min) + 1
    match our_current with
    | some cur =>
      if best_price = cur then
        let target :=
          if best_qty > our_size ∧ cur > lo then cur - 1
          else if sticky_ceiling ∧ ¬is_retest then cur
          else if second_price < 100 then second_price - 1 else 99
        some (max lo (min 99 target))
      else if best_price < cur then
        if best_price < lo then none
        else some (max lo (min 99 (best_price - 1)))
      else
        if best_price < lo then none
        else some (max lo (min 99 (best_price - 1)))
    | none =>
      if best_price < lo then none
      else some (max lo (min 99 (best_price - 1)))

lemma pyInt_of_nonneg (q : ℚ) (h : 0 ≤ q) : pyInt q = ⌊q⌋ := by
  unfold pyInt
  rw [if_neg (not_lt.mpr h)]

lemma floor_le_pyInt (q : ℚ) : ⌊q⌋ ≤ pyInt q := by
  unfold pyInt
  split_ifs with h
  · exact Int.floor_le_ceil q
  · exact le_rfl

lemma max_one_pyInt (q : ℚ) : max 1 (pyInt q) = max 1 ⌊q⌋ := by
  unfold pyInt
  split_ifs with h
  · have h1 : ⌈q⌉ ≤ 0 := by
      rw [show (0 : ℤ) = ⌈(0 : ℚ)⌉ by norm_num]
      exact Int.ceil_le_ceil h.le
    have h2 : ⌊q⌋ ≤ ⌈q⌉ := Int.floor_le_ceil q
    omega
  · rfl

/-- C1: on the ask side with `best_price` strictly below the floor and no
current order at the best price, `mm.calculate_adaptive_price` does not return
a value: it evaluates the unbound name `must_quote` and raises `NameError`
(its own callers even pass `must_quote=` as a keyword the signature lacks).
Concretely, `theo = 50`, `edge_min = 1`, `best_price = 40 < floor = 52`. -/
theorem C1_ask_below_floor_raises :
    calculate_adaptive_price 50 40 30 .ask 1 none false false 0 0 = none := by
  unfold calculate_adaptive_price
  have h : pyInt ((50 : ℚ) + 1) = 51 := by
    rw [pyInt_of_nonneg _ (by norm_num)]
    norm_num
  simp only [h]
  norm_num

/-- C2 counterexample: bid side, `our_current = best_price = 58`,
`best_qty = our_size = 5`, sticky and not retest, but `theo = 50`,
`edge_min = 1` gives `ceiling = 49 < 58`; the code returns
`max(1, min(49, 58)) = 49`, not `our_current = 58`. -/
theorem C2_counterexample :
    calculate_adaptive_price 50 58 57 .bid 1 (some 58) true false 5 5 = some 49 ∧
      (49 : ℤ) ≠ 58 := by
  constructor
  · unfold calculate_adaptive_price
    have h : pyInt ((50 : ℚ) - 1) = 49 := by
      rw [pyInt_of_nonneg _ (by norm_num)]
      norm_num
    simp only [h]
    norm_num
  · decide

/-- C2 amended: under the claim's hypotheses (bid side, `our_current` equal to
`best_price`, `best_qty = our_size`, sticky, not retest) and the additional
bounds `1 ≤ our_current ≤ int(theo - edge_min)` that the final
`max(1, min(ceiling, target))` clamp of the source forces, the returned price
is exactly `our_current` (the order is held).  Without the bounds the claim
fails, as the counterexample shows. -/
theorem C2_sticky_hold (theo edge_min : ℚ) (cur second qty size : ℤ)
    (hq : qty = size) (h1 : 1 ≤ cur) (h2 : cur ≤ pyInt (theo - edge_min)) :
    calculate_adaptive_price theo cur second .bid edge_min (some cur)
      true false qty size = some cur := by
  have hq2 : ¬(qty > size) := by omega
  unfold calculate_adaptive_price
  simp [hq2, min_eq_right h2, max_eq_right h1]

theorem C2_sticky_hold_witness :
    calculate_adaptive_price 60 55 54 .bid 2 (some 55) true false 5 5 = some 55 := by
  apply C2_sticky_hold 60 2 55 54 5 5 rfl (by decide)
  rw [pyInt_of_nonneg _ (by norm_num)]
  have : ((60 : ℚ) - 2) = ((58 : ℤ) : ℚ) := by norm_num
  rw [this, Int.floor_intCast]
  decide

/-- C3 counterexample: bid side, `theo = 3/2`, `edge_min = 1`, sticky hold at
`our_current = best = 5`; the claim's ceiling is `⌊theo - edge_min⌋ = 0`, but
the code returns `max(1, min(0, 5)) = 1 > 0`, a numeric price above the
claimed ceiling. -/
theorem C3_counterexample :
    calculate_adaptive_price (3/2) 5 4 .bid 1 (some 5) true false 5 5 = some 1 ∧
      ¬((1 : ℤ) ≤ ⌊(3/2 : ℚ) - 1⌋) := by
  have hfl : ⌊(3/2 : ℚ) - 1⌋ = 0 := by norm_num
  constructor
  · unfold calculate_adaptive_price
    have h : pyInt ((3/2 : ℚ) - 1) = 0 := by
      rw [pyInt_of_nonneg _ (by norm_num), hfl]
    simp only [h]
    norm_num
  · rw [hfl]
    decide

/-- C3 amended: every numeric (non-sentinel) result of
`mm.calculate_adaptive_price` is at most `max(1, ⌊theo - edge_min⌋)` on the
bid side and at least `⌊theo + edge_min⌋ + 1` on the ask side (the code
computes its bounds with `int()` truncation and clamps bids below at 1, so
the spec's exact `⌊theo - edge_min⌋` ceiling and `⌈theo + edge_min⌉ + 1`
floor do not hold). -/
theorem C3_price_within_bounds (theo edge_min : ℚ) (best second qty size : ℤ)
    (cur : Option ℤ) (side : Side) (s r : Bool) (p : ℤ)
    (h : calculate_adaptive_price theo best second side edge_min cur s r qty size
        = some p)
    (hp : p ≠ -1) :
    (side = .bid → p ≤ max 1 ⌊theo - edge_min⌋) ∧
      (side = .ask → ⌊theo + edge_min⌋ + 1 ≤ p) := by
  cases side with
  | bid =>
    refine ⟨fun _ => ?_, fun hcontra => by cases hcontra⟩
    rw [← max_one_pyInt]
    unfold calculate_adaptive_price at h
    have bound : ∀ t : ℤ,
        max 1 (min (pyInt (theo - edge_min)) t) ≤ max 1 (pyInt (theo - edge_min)) :=
      fun t => max_le_max le_rfl (min_le_left _ _)
    cases cur with
    | some c =>
      simp only at h
      split_ifs at h with h1 h2 h3 h4 h5 <;>
        first
          | (injection h with h'; subst h'; exact bound _)
          | (injection h with h'; exact absurd h'.symm hp)
    | none =>
      simp only at h
      split_ifs at h with h1 <;>
        first
          | (injection h with h'; subst h'; exact bound _)
          | (injection h with h'; exact absurd h'.symm hp)
  | ask =>
    refine ⟨fun hcontra => (by cases hcontra), fun _ => ?_⟩
    have hfl : ⌊theo + edge_min⌋ + 1 ≤ pyInt (theo + edge_min) + 1 := by
      have := floor_le_pyInt (theo + edge_min)
      omega
    unfold calculate_adaptive_price at h
    have bound : ∀ t : ℤ,
        pyInt (theo + edge_min) + 1 ≤ max (pyInt (theo + edge_min) + 1) (min 99 t) :=
      fun t => le_max_left _ _
    cases cur with
    | some c =>
      simp only at h
      split_ifs at h with h1 h2 h3 h4 h5 <;>
        first
          | (injection h with h'; subst h'; exact le_trans hfl (bound _))
          | exact absurd h (by simp)
    | none =>
      simp only at h
      split_ifs at h with h1 <;>
        first
          | (injection h with h'; subst h'; exact le_trans hfl (bound _))
          | exact absurd h (by simp)

theorem C3_price_within_bounds_witness :
    (53 : ℤ) ≤ max 1 ⌊(60 : ℚ) - 2⌋ := by
  have heval : calculate_adaptive_price 60 52 40 .bid 2 none true false 10 5
      = some 53 := by
    unfold calculate_adaptive_price
    have h : pyInt ((60 : ℚ) - 2) = 58 := by
      rw [pyInt_of_nonneg _ (by norm_num)]
      norm_num
    simp only [h]
    norm_num
  exact (C3_price_within_bounds 60 2 52 40 10 5 none .bid true false 53 heval
    (by decide)).1 rfl

/-- Round half to even (banker's rounding) of a rational to an integer, as
Python's built-in `round` does. -/
def roundHalfEven (q : ℚ) : ℤ :=
  if q - ⌊q⌋ < 1/2 then ⌊q⌋
  else if 1/2 < q - ⌊q⌋ then ⌊q⌋ + 1
  else if Even ⌊q⌋ then ⌊q⌋ else ⌊q⌋ + 1

/-- Python `round(x, 1)`: banker's rounding to one decimal place. -/
def pyRound1 (q : ℚ) : ℚ := (roundHalfEven (10 * q) : ℚ) / 10

/-- Python `round(x, 2)`: banker's rounding to two decimal places. -/
def pyRound2 (q : ℚ) : ℚ := (roundHalfEven (100 * q) : ℚ) / 100

/-- Result record of `mm.calculate_theo` (keys "a", "b", "vig"). -/
structure TheoResult where
  a : ℚ
  b : ℚ
  vig : ℚ
deriving DecidableEq

/-- Embedding of `mm.calculate_theo` (src/mm.py, lines 387-400):
`prob_i = 1/odds_i` (0 when odds not positive), `total = prob_a + prob_b`,
`theo_i = (prob_i / total) * 100`, each returned rounded to one decimal;
`vig = (total - 1) * 100` rounded to two decimals. -/
def calculate_theo (odds_a odds_b : ℚ) : TheoResult :=
  let prob_a := if 0 < odds_a then 1 / odds_a else 0
  let prob_b := if 0 < odds_b then 1 / odds_b else 0
  let total := prob_a + prob_b
  let theo_a := prob_a / total * 100
  let theo_b := prob_b / total * 100
  { a := pyRound1 theo_a, b := pyRound1 theo_b, vig := pyRound2 ((total - 1) * 100) }

lemma rhe_intCast (n : ℤ) : roundHalfEven (n : ℚ) = n := by
  unfold roundHalfEven
  rw [Int.floor_intCast]
  rw [if_pos (by norm_num)]

lemma rhe_of_lt (q : ℚ) (h : q - ⌊q⌋ < 1/2) : roundHalfEven q = ⌊q⌋ := by
  unfold roundHalfEven
  rw [if_pos h]

lemma rhe_of_gt (q : ℚ) (h : 1/2 < q - ⌊q⌋) : roundHalfEven q = ⌊q⌋ + 1 := by
  unfold roundHalfEven
  rw [if_neg (by linarith), if_pos h]

lemma rhe_of_half_even (q : ℚ) (h : q - ⌊q⌋ = 1/2) (he : Even ⌊q⌋) :
    roundHalfEven q = ⌊q⌋ := by
  unfold roundHalfEven
  rw [if_neg (by rw [h]; norm_num), if_neg (by rw [h]; norm_num), if_pos he]

lemma rhe_of_half_odd (q : ℚ) (h : q - ⌊q⌋ = 1/2) (he : ¬Even ⌊q⌋) :
    roundHalfEven q = ⌊q⌋ + 1 := by
  unfold roundHalfEven
  rw [if_neg (by rw [h]; norm_num), if_neg (by rw [h]; norm_num), if_neg he]

lemma rhe_eval_lt (q : ℚ) (m : ℤ) (h1 : (m : ℚ) ≤ q) (h3 : q - m < 1/2) :
    roundHalfEven q = m := by
  have hf : ⌊q⌋ = m := by
    rw [Int.floor_eq_iff]
    exact ⟨h1, by push_cast; linarith⟩
  rw [rhe_of_lt q (by rw [hf]; exact h3), hf]

lemma rhe_eval_gt (q : ℚ) (m : ℤ) (h1 : 1/2 < q - m) (h3 : q < (m : ℚ) + 1) :
    roundHalfEven q = m + 1 := by
  have hf : ⌊q⌋ = m := by
    rw [Int.floor_eq_iff]
    exact ⟨by linarith, by push_cast; linarith⟩
  rw [rhe_of_gt q (by rw [hf]; exact h1), hf]

/-- For an even integer `n`, banker's rounding of `a` and of `n - a` sum to
`n`; the half case relies on `⌊a⌋` and `⌊n - a⌋` having opposite parity. -/
lemma rhe_add_complement (a : ℚ) (n : ℤ) (hn : Even n) :
    roundHalfEven a + roundHalfEven ((n : ℚ) - a) = n := by
  by_cases hz : a = (⌊a⌋ : ℚ)
  · have h1 : roundHalfEven a = ⌊a⌋ := by
      apply rhe_of_lt
      rw [← hz]
      norm_num
    have h2 : ((n : ℚ) - a) = ((n - ⌊a⌋ : ℤ) : ℚ) := by
      conv_lhs => rw [hz]
      push_cast
      ring
    rw [h1, h2, rhe_intCast]
    omega
  · have hlow : ((⌊a⌋ : ℤ) : ℚ) < a := lt_of_le_of_ne (Int.floor_le a) (Ne.symm hz)
    have hhigh : a < ((⌊a⌋ : ℤ) : ℚ) + 1 := Int.lt_floor_add_one a
    have hfloor2 : ⌊(n : ℚ) - a⌋ = n - ⌊a⌋ - 1 := by
      rw [Int.floor_eq_iff]
      constructor
      · push_cast
        linarith
      · push_cast
        linarith
    have hfr : ((n : ℚ) - a) - ⌊(n : ℚ) - a⌋ = 1 - (a - ⌊a⌋) := by
      rw [hfloor2]
      push_cast
      ring
    rcases lt_trichotomy (a - (⌊a⌋ : ℚ)) (1/2) with hlt | heq | hgt
    · have h1 := rhe_of_lt a hlt
      have h2 : roundHalfEven ((n : ℚ) - a) = n - ⌊a⌋ - 1 + 1 := by
        rw [rhe_of_gt _ (by rw [hfr]; linarith), hfloor2]
      rw [h1, h2]
      omega
    · have hfr2 : ((n : ℚ) - a) - ⌊(n : ℚ) - a⌋ = 1/2 := by
        rw [hfr, heq]
        norm_num
      by_cases hme : Even ⌊a⌋
      · have h1 := rhe_of_half_even a heq hme
        have hodd : ¬Even ⌊(n : ℚ) - a⌋ := by
          rw [hfloor2]
          rcases hn with ⟨k, hk⟩
          rcases hme with ⟨j, hj⟩
          intro ⟨i, hi⟩
          omega
        have h2 := rhe_of_half_odd _ hfr2 hodd
        rw [h1, h2, hfloor2]
        omega
      · have h1 := rhe_of_half_odd a heq hme
        have heven : Even ⌊(n : ℚ) - a⌋ := by
          rw [hfloor2]
          rcases hn with ⟨k, hk⟩
          rcases Int.even_or_odd ⌊a⌋ with he | ho
          · exact absurd he hme
          · rcases ho with ⟨j, hj⟩
            exact ⟨k - j - 1, by omega⟩
        have h2 := rhe_of_half_even _ hfr2 heven
        rw [h1, h2, hfloor2]
        omega
    · have h1 := rhe_of_gt a hgt
      have h2 : roundHalfEven ((n : ℚ) - a) = n - ⌊a⌋ - 1 := by
        rw [rhe_of_lt _ (by rw [hfr]; linarith), hfloor2]
      rw [h1, h2]
      omega

lemma pyRound1_add_complement (x y : ℚ) (h : x + y = 100) :
    pyRound1 x + pyRound1 y = 100 := by
  have h10 : 10 * y = ((1000 : ℤ) : ℚ) - 10 * x := by
    push_cast
    linarith
  have hsum : roundHalfEven (10 * x) + roundHalfEven (((1000 : ℤ) : ℚ) - 10 * x)
      = 1000 := rhe_add_complement (10 * x) 1000 (by decide)
  unfold pyRound1
  rw [h10, div_add_div_same, ← Int.cast_add, hsum]
  norm_num

/-- C4 counterexample: for odds `o_A = 2`, `o_B = 1` the probabilities are
`1/2` and `1`, so the exact theo for A is `100/3`.  The claim's
`round(100·p_A/(p_A+p_B))` is the integer 33, but `mm.calculate_theo` rounds
to ONE DECIMAL and returns `33.3` (and computes `theo_B` independently as
`66.7` rather than as `100 - theo_A`). -/
theorem C4_counterexample :
    (calculate_theo 2 1).a = 333/10 ∧
      (calculate_theo 2 1).a ≠
        ((roundHalfEven (100 * (1 / (2 : ℚ)) / (1 / 2 + 1 / 1)) : ℤ) : ℚ) := by
  have hval : (calculate_theo 2 1).a = 333/10 := by
    have key : ∀ q : ℚ, q = 1000/3 → ((roundHalfEven q : ℤ) : ℚ) / 10 = 333/10 := by
      intro q hq
      rw [hq, rhe_eval_lt _ 333 (by norm_num) (by norm_num)]
      norm_num
    unfold calculate_theo
    rw [if_pos (by norm_num : (0 : ℚ) < 2), if_pos (by norm_num : (0 : ℚ) < 1)]
    simp only [pyRound1]
    exact key _ (by norm_num)
  have hrhe : roundHalfEven (100 * (1 / (2 : ℚ)) / (1 / 2 + 1 / 1)) = 33 :=
    rhe_eval_lt _ 33 (by norm_num) (by norm_num)
  refine ⟨hval, ?_⟩
  rw [hval, hrhe]
  norm_num

/-- C4 amended: for positive decimal odds, `mm.calculate_theo` returns
`theo_A = round(100·p_A/(p_A+p_B), 1)` and `theo_B = round(100·p_B/(p_A+p_B), 1)`
(one-decimal banker's rounding, each side computed independently), and the two
returned theos still always satisfy `theo_A + theo_B = 100`. -/
theorem C4_theo_sum (odds_a odds_b : ℚ) (ha : 0 < odds_a) (hb : 0 < odds_b) :
    (calculate_theo odds_a odds_b).a
        = pyRound1 (100 * (1 / odds_a) / (1 / odds_a + 1 / odds_b)) ∧
      (calculate_theo odds_a odds_b).b
        = pyRound1 (100 * (1 / odds_b) / (1 / odds_a + 1 / odds_b)) ∧
      (calculate_theo odds_a odds_b).a + (calculate_theo odds_a odds_b).b = 100 := by
  have hpa : (0 : ℚ) < 1 / odds_a := by positivity
  have hpb : (0 : ℚ) < 1 / odds_b := by positivity
  have htot : (0 : ℚ) < 1 / odds_a + 1 / odds_b := by positivity
  have hA : (calculate_theo odds_a odds_b).a
      = pyRound1 (1 / odds_a / (1 / odds_a + 1 / odds_b) * 100) := by
    unfold calculate_theo
    rw [if_pos ha, if_pos hb]
  have hB : (calculate_theo odds_a odds_b).b
      = pyRound1 (1 / odds_b / (1 / odds_a + 1 / odds_b) * 100) := by
    unfold calculate_theo
    rw [if_pos ha, if_pos hb]
  refine ⟨?_, ?_, ?_⟩
  · rw [hA]
    ring_nf
  · rw [hB]
    ring_nf
  · rw [hA, hB]
    apply pyRound1_add_complement
    field_simp
    ring

/-- Ticker of a fill, restricted to the two legs of one match. -/
inductive Tick where
  | A
  | B
deriving DecidableEq

/-- YES/NO side of a fill. -/
inductive YesNo where
  | yes
  | no
deriving DecidableEq

/-- A journaled fill of one match: ticker, side, price (cents), contract
count, and its date bucket (`created_time` reduced to the period key, an
ordered value).  Lists of `DFill` are kept in chronological order, as
`get_fills_for_match` returns them (`ORDER BY created_time`). -/
structure DFill where
  ticker : Tick
  side : YesNo
  price : ℤ
  count : ℕ
  day : ℕ
deriving DecidableEq

/-- A fill goes long A iff it is an A-YES or B-NO purchase
(src/pnl_db.py, lines 303-305). -/
def isLongA (f : DFill) : Bool :=
  (f.ticker == Tick.A && f.side == YesNo.yes) ||
    (f.ticker == Tick.B && f.side == YesNo.no)

/-- The long-A queue: fills satisfying the long-A test, in order. -/
def fillsA (fills : List DFill) : List DFill := fills.filter (fun f => isLongA f)

/-- The long-B queue: the `else` branch of the partition — every fill that is
not long-A, in order. -/
def fillsB (fills : List DFill) : List DFill := fills.filter (fun f => !(isLongA f))

/-- Total contract count of a queue (`sum(f["count"] for f in ...)`). -/
def totalCount (fs : List DFill) : ℕ := (fs.map fun f => f.count).sum

/-- The paired-cost loop of `calculate_match_pnl` (src/pnl_db.py, lines
314-330): walk the queue, take `min(count, remaining)` from each fill at its
price, stop when `remaining` hits zero. -/
def pairedCost : List DFill → ℕ → ℤ
  | [], _ => 0
  | f :: rest, remaining =>
    if remaining = 0 then 0
    else
      let tk := min f.count remaining
      (tk : ℤ) * f.price + pairedCost rest (remaining - tk)

/-- Output record of `calculate_match_pnl` (the fields the P&L claims are
about). -/
structure PnlOut where
  pairs : ℕ
  arb : ℤ
  leftover_a : ℕ
  leftover_b : ℕ
deriving DecidableEq

/-- Embedding of `pnl_db.calculate_match_pnl` (src/pnl_db.py, lines 293-336):
partition the match's chronologically ordered fills into the long-A and
long-B queues, set `pairs = min(total_a, total_b)`, take the paired cost of
each queue FIFO, report `arb = 100*pairs - cost_a_paired - cost_b_paired`
and the leftover counts. -/
def calculate_match_pnl (fills : List DFill) : PnlOut :=
  let fa := fillsA fills
  let fb := fillsB fills
  let total_a := totalCount fa
  let total_b := totalCount fb
  let pairs := min total_a total_b
  let cost_a_paired := pairedCost fa pairs
  let cost_b_paired := pairedCost fb pairs
  { pairs := pairs
    arb := 100 * (pairs : ℤ) - cost_a_paired - cost_b_paired
    leftover_a := total_a - pairs
    leftover_b := total_b - pairs }

/-- The queue flattened to one price per contract, front first: the
specification-side description of FIFO consumption. -/
def unitPrices : List DFill → List ℤ
  | [] => []
  | f :: rest => List.replicate f.count f.price ++ unitPrices rest

/-- Cost of the first `n` contracts of a queue, taken FIFO from the front. -/
def fifoCost (fs : List DFill) (n : ℕ) : ℤ := ((unitPrices fs).take n).sum

lemma unitPrices_length (fs : List DFill) : (unitPrices fs).length = totalCount fs := by
  induction fs with
  | nil => rfl
  | cons f rest ih =>
    simp [unitPrices, totalCount, ih, List.length_replicate]

/-- The source's paired-cost loop consumes exactly the first `n` flattened
contracts. -/
lemma pairedCost_eq_fifo (fs : List DFill) (n : ℕ) :
    pairedCost fs n = fifoCost fs n := by
  induction fs generalizing n with
  | nil => simp [pairedCost, fifoCost, unitPrices]
  | cons f rest ih =>
    by_cases h0 : n = 0
    · subst h0
      simp [pairedCost, fifoCost]
    · unfold fifoCost unitPrices
      rw [List.take_append_eq_append_take, List.sum_append, List.length_replicate]
      simp only [pairedCost, if_neg h0]
      rw [ih, List.take_replicate, List.sum_replicate, nsmul_eq_mul]
      unfold fifoCost
      rcases Nat.le_total f.count n with hle | hle
      · rw [min_eq_left hle, min_eq_right hle]
      · rw [min_eq_right hle, min_eq_left hle]
        have e1 : n - n = 0 := by omega
        have e2 : n - f.count = 0 := by omega
        rw [e1, e2]

/-- C7: for every fills sequence, `calculate_match_pnl` pairs
`min(total_A, total_B)` contracts and its arb equals `100·pairs` minus the
FIFO cost of the first `pairs` contracts of each of the long-A (A-YES, B-NO)
and long-B queues, the queues being the chronological partition of the
fills. -/
theorem C7_arb_fifo_pairing (fills : List DFill) :
    (calculate_match_pnl fills).pairs
        = min (totalCount (fillsA fills)) (totalCount (fillsB fills)) ∧
      (calculate_match_pnl fills).arb
        = 100 * ((calculate_match_pnl fills).pairs : ℤ)
            - fifoCost (fillsA fills) ((calculate_match_pnl fills).pairs)
            - fifoCost (fillsB fills) ((calculate_match_pnl fills).pairs) := by
  refine ⟨rfl, ?_⟩
  unfold calculate_match_pnl
  simp only
  rw [pairedCost_eq_fifo, pairedCost_eq_fifo]

/-- C10: the leftovers reported by `calculate_match_pnl` are the totals minus
the pair count, so at least one of the two reported unpaired exposures is
always zero. -/
theorem C10_leftover_one_sided (fills : List DFill) :
    (calculate_match_pnl fills).leftover_a
        = totalCount (fillsA fills) - (calculate_match_pnl fills).pairs ∧
      (calculate_match_pnl fills).leftover_b
        = totalCount (fillsB fills) - (calculate_match_pnl fills).pairs ∧
      min (calculate_match_pnl fills).leftover_a
          (calculate_match_pnl fills).leftover_b = 0 := by
  refine ⟨rfl, rfl, ?_⟩
  unfold calculate_match_pnl
  simp only
  omega

/-- Embedding of the FIFO pair-matching loop of `pnl_db.get_pnl_summary`
(src/pnl_db.py, lines 493-521): while both queues are nonempty, close
`min(remaining_a, remaining_b)` pairs, credit `(100 - price_a - price_b)` per
pair to the LATER (`max`) of the two legs' date buckets, and advance whichever
head was consumed.  Each emitted element is one `(bucket, credited arb)`
update of the `periods` accumulator. -/
def pairWalk : List DFill → List DFill → List (ℕ × ℤ)
  | [], _ => []
  | _ :: _, [] => []
  | a :: as, b :: bs =>
    let pc := min a.count b.count
    let credit := (max a.day b.day, (100 - a.price - b.price) * (pc : ℤ))
    if a.count < b.count then
      credit :: pairWalk as ({ b with count := b.count - a.count } :: bs)
    else if b.count < a.count then
      credit :: pairWalk ({ a with count := a.count - b.count } :: as) bs
    else
      credit :: pairWalk as bs
termination_by x y => x.length + y.length
decreasing_by
  all_goals simp [List.length_cons]
  all_goals omega

/-- Total arb credited over all buckets by the summary walk. -/
def walkArbTotal (qa qb : List DFill) : ℤ := ((pairWalk qa qb).map Prod.snd).sum

/-- Arb of the elementwise pairing of two flattened queues, one pair per
zipped contract. -/
def zipArb (l l' : List ℤ) : ℤ := ((l.zip l').map fun p => 100 - p.1 - p.2).sum

lemma zipArb_replicate (ca cb : ℕ) (pa pb : ℤ) (X Y : List ℤ) (h : ca ≤ cb) :
    zipArb (List.replicate ca pa ++ X) (List.replicate cb pb ++ Y)
      = (ca : ℤ) * (100 - pa - pb) + zipArb X (List.replicate (cb - ca) pb ++ Y) := by
  have hsplit : List.replicate cb pb
      = List.replicate ca pb ++ List.replicate (cb - ca) pb := by
    rw [← List.replicate_add]
    congr 1
    omega
  rw [hsplit, List.append_assoc]
  unfold zipArb
  rw [List.zip_append (by simp [List.length_replicate])]
  rw [List.map_append, List.sum_append]
  congr 1
  rw [List.zip_replicate, min_self, List.map_replicate, List.sum_replicate,
    nsmul_eq_mul]

lemma zipArb_replicate_right (ca cb : ℕ) (pa pb : ℤ) (X Y : List ℤ) (h : cb ≤ ca) :
    zipArb (List.replicate ca pa ++ X) (List.replicate cb pb ++ Y)
      = (cb : ℤ) * (100 - pa - pb) + zipArb (List.replicate (ca - cb) pa ++ X) Y := by
  have hsplit : List.replicate ca pa
      = List.replicate cb pa ++ List.replicate (ca - cb) pa := by
    rw [← List.replicate_add]
    congr 1
    omega
  rw [hsplit, List.append_assoc]
  unfold zipArb
  rw [List.zip_append (by simp [List.length_replicate])]
  rw [List.map_append, List.sum_append]
  congr 1
  rw [List.zip_replicate, min_self, List.map_replicate, List.sum_replicate,
    nsmul_eq_mul]

lemma pairWalk_cons (a : DFill) (as : List DFill) (b : DFill) (bs : List DFill) :
    pairWalk (a :: as) (b :: bs)
      = (max a.day b.day, (100 - a.price - b.price) * ((min a.count b.count : ℕ) : ℤ)) ::
        (if a.count < b.count then
          pairWalk as ({ b with count := b.count - a.count } :: bs)
        else if b.count < a.count then
          pairWalk ({ a with count := a.count - b.count } :: as) bs
        else pairWalk as bs) := by
  simp only [pairWalk]
  split_ifs <;> rfl

/-- The summary walk credits, in total, exactly the zipped arb of the two
flattened queues. -/
lemma pairWalk_sum (qa qb : List DFill) :
    walkArbTotal qa qb = zipArb (unitPrices qa) (unitPrices qb) := by
  induction qa, qb using pairWalk.induct with
  | case1 qb =>
    simp [walkArbTotal, pairWalk, zipArb, unitPrices]
  | case2 a as =>
    simp [walkArbTotal, pairWalk, zipArb, unitPrices]
  | case3 a as b bs hlt ih =>
    unfold walkArbTotal at ih ⊢
    rw [pairWalk_cons, if_pos hlt]
    simp only [List.map_cons, List.sum_cons]
    rw [ih]
    rw [show unitPrices ({ b with count := b.count - a.count } :: bs)
        = List.replicate (b.count - a.count) b.price ++ unitPrices bs from rfl]
    rw [show unitPrices (a :: as)
        = List.replicate a.count a.price ++ unitPrices as from rfl]
    rw [show unitPrices (b :: bs)
        = List.replicate b.count b.price ++ unitPrices bs from rfl]
    rw [zipArb_replicate a.count b.count a.price b.price _ _ hlt.le]
    rw [min_eq_left hlt.le]
    ring
  | case4 a as b bs hnlt hlt ih =>
    unfold walkArbTotal at ih ⊢
    rw [pairWalk_cons, if_neg hnlt, if_pos hlt]
    simp only [List.map_cons, List.sum_cons]
    rw [ih]
    rw [show unitPrices ({ a with count := a.count - b.count } :: as)
        = List.replicate (a.count - b.count) a.price ++ unitPrices as from rfl]
    rw [show unitPrices (a :: as)
        = List.replicate a.count a.price ++ unitPrices as from rfl]
    rw [show unitPrices (b :: bs)
        = List.replicate b.count b.price ++ unitPrices bs from rfl]
    rw [zipArb_replicate_right a.count b.count a.price b.price _ _ hlt.le]
    rw [min_eq_right hlt.le]
    ring
  | case5 a as b bs hnlt hnlt2 ih =>
    unfold walkArbTotal at ih ⊢
    rw [pairWalk_cons, if_neg hnlt, if_neg hnlt2]
    simp only [List.map_cons, List.sum_cons]
    rw [ih]
    have heq : a.count = b.count := by omega
    rw [show unitPrices (a :: as)
        = List.replicate a.count a.price ++ unitPrices as from rfl]
    rw [show unitPrices (b :: bs)
        = List.replicate b.count b.price ++ unitPrices bs from rfl]
    rw [zipArb_replicate a.count b.count a.price b.price _ _ heq.le]
    rw [show b.count - a.count = 0 by omega, List.replicate_zero, List.nil_append]
    rw [heq, min_self]
    ring

lemma zipArb_closed (l l' : List ℤ) :
    zipArb l l' = 100 * ((min l.length l'.length : ℕ) : ℤ)
      - (l.take l'.length).sum - (l'.take l.length).sum := by
  induction l generalizing l' with
  | nil => simp [zipArb]
  | cons x xs ih =>
    cases l' with
    | nil => simp [zipArb]
    | cons y ys =>
      unfold zipArb at *
      simp only [List.zip_cons_cons, List.map_cons, List.sum_cons,
        List.length_cons, List.take_succ_cons]
      rw [ih ys]
      have : min (xs.length + 1) (ys.length + 1) = min xs.length ys.length + 1 := by
        omega
      rw [this]
      push_cast
      ring

/-- C8: for every fills sequence of a match, the total arb credited to date
buckets by the period summary's global chronological FIFO walk (each closed
pair crediting `100 - price_A - price_B` per contract to the later of the two
legs' buckets, by construction of `pairWalk`) equals the arb that
`calculate_match_pnl` reports for the same fills. -/
theorem C8_summary_arb_refines_match_pnl (fills : List DFill) :
    walkArbTotal (fillsA fills) (fillsB fills) = (calculate_match_pnl fills).arb := by
  rw [pairWalk_sum, zipArb_closed]
  unfold calculate_match_pnl
  simp only
  rw [pairedCost_eq_fifo, pairedCost_eq_fifo]
  unfold fifoCost
  rw [unitPrices_length, unitPrices_length]
  have h1 : (unitPrices (fillsA fills)).take (totalCount (fillsB fills))
      = (unitPrices (fillsA fills)).take
          (min (totalCount (fillsA fills)) (totalCount (fillsB fills))) := by
    rw [List.take_eq_take]
    rw [unitPrices_length]
    omega
  have h2 : (unitPrices (fillsB fills)).take (totalCount (fillsA fills))
      = (unitPrices (fillsB fills)).take
          (min (totalCount (fillsA fills)) (totalCount (fillsB fills))) := by
    rw [List.take_eq_take]
    rw [unitPrices_length]
    omega
  rw [h1, h2]

/-- A stored row of the `fills` table (src/pnl_db.py, lines 38-50). -/
structure FillRow where
  ticker : String
  side : String
  action : String
  price : ℤ
  count : ℤ
  is_taker : Bool
  fee_cost : ℤ
  created_time : String
  match_id : Option String
  synced_at : String
deriving DecidableEq

/-- The arguments of `insert_fill` (everything except `synced_at`, which the
function stamps itself). -/
structure FillArgs where
  fill_id : String
  ticker : String
  side : String
  action : String
  price : ℤ
  count : ℤ
  is_taker : Bool
  fee_cost : ℤ
  created_time : String
  match_id : Option String
deriving DecidableEq

/-- The row the INSERT writes for fresh ids, stamped with the current time. -/
def rowOfArgs (a : FillArgs) (now : String) : FillRow :=
  { ticker := a.ticker
    side := a.side
    action := a.action
    price := a.price
    count := a.count
    is_taker := a.is_taker
    fee_cost := a.fee_cost
    created_time := a.created_time
    match_id := a.match_id
    synced_at := now }

/-- The `ON CONFLICT(id) DO UPDATE SET match_id = excluded.match_id` action,
applied to the row holding the conflicting primary key. -/
def updMatch (k : String) (m : Option String) (kr : String × FillRow) :
    String × FillRow :=
  if kr.1 = k then (kr.1, { kr.2 with match_id := m }) else kr

/-- Embedding of `pnl_db.insert_fill` (src/pnl_db.py, lines 83-108): the
fills table is an id-keyed association list; a fresh `fill_id` appends a new
row stamped `synced_at = now`, a conflicting `fill_id` only rewrites the
stored row's `match_id` (every other column, `synced_at` included, keeps its
value). -/
def insert_fill (tbl : List (String × FillRow)) (a : FillArgs) (now : String) :
    List (String × FillRow) :=
  if (tbl.lookup a.fill_id).isSome then tbl.map (updMatch a.fill_id a.match_id)
  else tbl ++ [(a.fill_id, rowOfArgs a now)]

lemma updMatch_idem (k : String) (m : Option String) (kr : String × FillRow) :
    updMatch k m (updMatch k m kr) = updMatch k m kr := by
  unfold updMatch
  by_cases hk : kr.1 = k
  · rw [if_pos hk]
    rw [if_pos hk]
  · rw [if_neg hk, if_neg hk]

lemma updMatch_eq_of_key (k : String) (m : Option String) (r : FillRow) :
    updMatch k m (k, r) = (k, { r with match_id := m }) := by
  unfold updMatch
  rw [if_pos rfl]

lemma updMatch_eq_of_ne (k : String) (m : Option String) (k' : String) (r : FillRow)
    (h : ¬ k' = k) : updMatch k m (k', r) = (k', r) := by
  unfold updMatch
  rw [if_neg h]

lemma lookup_map_updMatch (tbl : List (String × FillRow)) (k : String)
    (m : Option String) :
    ((tbl.map (updMatch k m)).lookup k).isSome = (tbl.lookup k).isSome := by
  induction tbl with
  | nil => rfl
  | cons kr rest ih =>
    obtain ⟨k', r⟩ := kr
    by_cases hk : k' = k
    · subst hk
      rw [List.map_cons, updMatch_eq_of_key]
      simp [List.lookup_cons]
    · have hbeq : (k == k') = false := by
        simp only [beq_eq_false_iff_ne, ne_eq]
        exact fun hcontra => hk hcontra.symm
      rw [List.map_cons, updMatch_eq_of_ne _ _ _ _ hk]
      simp only [List.lookup_cons, hbeq]
      exact ih

lemma lookup_none_keys (tbl : List (String × FillRow)) (k : String)
    (h : tbl.lookup k = none) (m : Option String) :
    tbl.map (updMatch k m) = tbl := by
  induction tbl with
  | nil => rfl
  | cons kr rest ih =>
    obtain ⟨k', r⟩ := kr
    by_cases hk : k' = k
    · subst hk
      rw [List.lookup_cons] at h
      simp at h
    · have hbeq : (k == k') = false := by
        simp only [beq_eq_false_iff_ne, ne_eq]
        exact fun hcontra => hk hcontra.symm
      rw [List.lookup_cons, hbeq] at h
      simp only at h
      rw [List.map_cons, updMatch_eq_of_ne _ _ _ _ hk, ih h]

lemma lookup_append_of_none (tbl l : List (String × FillRow)) (k : String)
    (h : tbl.lookup k = none) : (tbl ++ l).lookup k = l.lookup k := by
  induction tbl with
  | nil => rfl
  | cons kr rest ih =>
    obtain ⟨k', r⟩ := kr
    by_cases hk : k' = k
    · subst hk
      rw [List.lookup_cons] at h
      simp at h
    · have hbeq : (k == k') = false := by
        simp only [beq_eq_false_iff_ne, ne_eq]
        exact fun hcontra => hk hcontra.symm
      rw [List.lookup_cons, hbeq] at h
      simp only at h
      rw [List.cons_append, List.lookup_cons, hbeq]
      simp only
      exact ih h


/-- C9: inserting a fill twice with the same `fill_id` and identical field
values leaves the fills table exactly as one insertion leaves it: the second
call hits the `ON CONFLICT` branch, creates no second row, and rewrites only
`match_id` with the value it already has. -/
theorem C9_insert_fill_idempotent (tbl : List (String × FillRow)) (a : FillArgs)
    (t1 t2 : String) :
    insert_fill (insert_fill tbl a t1) a t2 = insert_fill tbl a t1 := by
  by_cases h : (tbl.lookup a.fill_id).isSome
  · unfold insert_fill
    rw [if_pos h]
    rw [if_pos (by rw [lookup_map_updMatch]; exact h)]
    rw [List.map_map]
    apply List.map_congr_left
    intro kr _
    exact updMatch_idem a.fill_id a.match_id kr
  · unfold insert_fill
    rw [if_neg h]
    have hnone : tbl.lookup a.fill_id = none := by
      rcases Option.eq_none_or_eq_some (tbl.lookup a.fill_id) with h0 | ⟨v, h0⟩
      · exact h0
      · exact absurd (by rw [h0]; rfl) h
    have hsome : ((tbl ++ [(a.fill_id, rowOfArgs a t1)]).lookup a.fill_id).isSome
        = true := by
      rw [lookup_append_of_none tbl _ _ hnone]
      simp [List.lookup]
    rw [if_pos hsome, List.map_append, lookup_none_keys tbl _ hnone]
    congr 1
    simp only [List.map_cons, List.map_nil, updMatch, if_pos]
    rfl

/-- A resting order tracked in the global `orders` map. -/
structure OrderSt where
  order_id : String
  price : ℤ
  count : ℕ
deriving DecidableEq

/-- The per-order-key state `place_or_update` manipulates: the `orders` entry
and the `overbid_since` entry for this key. -/
structure KeySt where
  order : Option OrderSt
  overbid : Option ℚ
deriving DecidableEq

/-- The cancel block of `place_or_update` (src/dashboard.py, lines 1188-1197):
cancel the resting order if any (`cancel_ok` is whether the gateway cancel
call succeeded; on an exception the `del` is skipped), then clear the overbid
timestamp unconditionally. -/
def cancelResting (st : KeySt) (cancel_ok : Bool) : KeySt :=
  if st.order.isSome ∧ cancel_ok then { order := none, overbid := none }
  else { st with overbid := none }

/-- The place block of `place_or_update` (src/dashboard.py, lines 1213-1230):
`place_result` is the `order_id` the gateway returned, if any; on success the
map entry is overwritten, on failure the old entry is left in place. -/
def placeNew (st : KeySt) (target : ℤ) (contracts : ℕ)
    (place_result : Option String) : KeySt :=
  match place_result with
  | some oid => { st with order := some { order_id := oid, price := target, count := contracts } }
  | none => st

/-- Embedding of `dashboard.place_or_update` for one order key
(src/dashboard.py, lines 1154-1230).  Negative targets back off: for
`target = -1` with a resting order, the first detection records
`overbid_since := now` and keeps the order, later detections keep it while
`now - overbid_since < overbid_cancel_delay` and cancel once the delay has
elapsed; any other negative target cancels immediately.  A concrete
(nonnegative) target clears the overbid timestamp, then leaves a matching
`(price, count)` order alone or cancels and re-places. -/
def place_or_update (st : KeySt) (target_price : ℤ) (contracts : ℕ)
    (now overbid_cancel_delay : ℚ) (cancel_ok : Bool)
    (place_result : Option String) : KeySt :=
  if target_price < 0 then
    if target_price = -1 ∧ st.order.isSome then
      match st.overbid with
      | none => { st with overbid := some now }
      | some t0 =>
        if now - t0 < overbid_cancel_delay then st
        else cancelResting st cancel_ok
    else cancelResting st cancel_ok
  else
    let st1 : KeySt := { st with overbid := none }
    match st1.order with
    | some cur =>
      if cur.price = target_price ∧ cur.count = contracts then st1
      else placeNew st1 target_price contracts place_result
    | none => placeNew st1 target_price contracts place_result

/-- C6: overbid hysteresis of the reconciler.  With a resting order and a
`BACK_OFF` (-1) target: the first detection records `overbid_since := now`
and keeps the order; a later detection inside the delay window changes
nothing; once `now - overbid_since ≥ overbid_cancel_delay` the order is
cancelled (removed from the map) and the timestamp cleared; and any concrete
(nonnegative) target clears the overbid timestamp. -/
theorem C6_overbid_hysteresis (ord : OrderSt) (ovb : Option ℚ)
    (t0 now delay : ℚ) (target : ℤ) (c : ℕ) (pr : Option String) :
    (place_or_update ⟨some ord, none⟩ (-1) c now delay true pr
        = ⟨some ord, some now⟩) ∧
      (now - t0 < delay →
        place_or_update ⟨some ord, some t0⟩ (-1) c now delay true pr
          = ⟨some ord, some t0⟩) ∧
      (delay ≤ now - t0 →
        place_or_update ⟨some ord, some t0⟩ (-1) c now delay true pr
          = ⟨none, none⟩) ∧
      (0 ≤ target →
        (place_or_update ⟨some ord, ovb⟩ target c now delay true pr).overbid
          = none) := by
  refine ⟨?_, fun h => ?_, fun h => ?_, fun h => ?_⟩
  · unfold place_or_update
    rw [if_pos (by norm_num), if_pos ⟨rfl, rfl⟩]
  · unfold place_or_update
    rw [if_pos (by norm_num), if_pos ⟨rfl, rfl⟩]
    simp only
    rw [if_pos h]
  · unfold place_or_update
    rw [if_pos (by norm_num), if_pos ⟨rfl, rfl⟩]
    simp only
    rw [if_neg (not_lt.mpr h)]
    unfold cancelResting
    rw [if_pos ⟨rfl, rfl⟩]
  · unfold place_or_update
    rw [if_neg (not_lt.mpr h)]
    simp only
    split_ifs with hmatch
    · rfl
    · unfold placeNew
      cases pr with
      | some oid => rfl
      | none => rfl

theorem C6_overbid_hysteresis_witness :
    (place_or_update ⟨some ⟨"o1", 50, 5⟩, none⟩ (-1) 5 10 3 true none
        = ⟨some ⟨"o1", 50, 5⟩, some 10⟩) ∧
      (place_or_update ⟨some ⟨"o1", 50, 5⟩, some 8⟩ (-1) 5 10 3 true none
        = ⟨some ⟨"o1", 50, 5⟩, some 8⟩) ∧
      (place_or_update ⟨some ⟨"o1", 50, 5⟩, some 2⟩ (-1) 5 10 3 true none
        = ⟨none, none⟩) ∧
      ((place_or_update ⟨some ⟨"o1", 50, 5⟩, some 2⟩ 47 5 10 3 true
          (some "o2")).overbid = none) := by
  have h1 := C6_overbid_hysteresis ⟨"o1", 50, 5⟩ none 0 10 3 (-1) 5 none
  have h2 := C6_overbid_hysteresis ⟨"o1", 50, 5⟩ none 8 10 3 (-1) 5 none
  have h3 := C6_overbid_hysteresis ⟨"o1", 50, 5⟩ none 2 10 3 (-1) 5 none
  have h4 := C6_overbid_hysteresis ⟨"o1", 50, 5⟩ (some 2) 0 10 3 47 5 (some "o2")
  exact ⟨h1.1, h2.2.1 (by norm_num), h3.2.2.1 (by norm_num), h4.2.2.2 (by norm_num)⟩

/-- The rebalance fee buffer, `REBAL_FEE_BUFFER_CENTS = 2` in src/dashboard.py
line 47. -/
def REBAL_FEE_BUFFER_CENTS : ℤ := 2

/-- Top-of-book snapshot for one market: YES-bid side and NO-bid side. -/
structure Book where
  best_bid : ℤ
  second_bid : ℤ
  best_bid_qty : ℤ
  best_no_bid : ℤ
  second_no_bid : ℤ
  best_no_bid_qty : ℤ
deriving DecidableEq

/-- The per-match inputs of one `update_quotes` evaluation
(src/dashboard.py, lines 961-1009): theos, edge, size, inventory state, cost
basis, both books, and for each leg the current order price and retest flag
as `get_order_info` returns them. -/
structure UQState where
  theo_a : ℚ
  theo_b : ℚ
  edge : ℚ
  contracts : ℤ
  inventory : ℤ
  inv_max : ℤ
  cost_long_a : ℤ
  count_long_a : ℤ
  cost_long_b : ℤ
  count_long_b : ℤ
  book_a : Book
  book_b : Book
  b_yes_cur : Option ℤ
  a_no_cur : Option ℤ
  b_yes_retest : Bool
  a_no_retest : Bool
deriving DecidableEq

/-- `avg_cost_a = cost_long_a / count_long_a if count_long_a > 0 else 0`
(src/dashboard.py, line 981). -/
def avg_cost_a (s : UQState) : ℚ :=
  if s.count_long_a > 0 then (s.cost_long_a : ℚ) / (s.count_long_a : ℚ) else 0

/-- The symmetric average cost on the long-B side (line 982). -/
def avg_cost_b (s : UQState) : ℚ :=
  if s.count_long_b > 0 then (s.cost_long_b : ℚ) / (s.count_long_b : ℚ) else 0

/-- `breakeven_for_b = 100 - ceil(avg_cost_a) - 1 - REBAL_FEE_BUFFER_CENTS if
avg_cost_a > 0 else 0` (src/dashboard.py, line 984). -/
def breakeven_for_b (s : UQState) : ℤ :=
  if avg_cost_a s > 0 then 100 - ⌈avg_cost_a s⌉ - 1 - REBAL_FEE_BUFFER_CENTS else 0

/-- The symmetric breakeven for the long-A side (line 985). -/
def breakeven_for_a (s : UQState) : ℤ :=
  if avg_cost_b s > 0 then 100 - ⌈avg_cost_b s⌉ - 1 - REBAL_FEE_BUFFER_CENTS else 0

/-- `rebalance_ceiling_b = breakeven_for_b if inventory >= inv_max and
breakeven_for_b > 0 else None` (src/dashboard.py, line 988). -/
def rebalance_ceiling_b (s : UQState) : Option ℤ :=
  if s.inventory ≥ s.inv_max ∧ breakeven_for_b s > 0 then some (breakeven_for_b s)
  else none

/-- Why a leg quote came out the way it did, mirroring the `*_reason` strings
of `update_quotes`. -/
inductive QReason where
  | rebalUnprofitable
  | rebalCeiling (r : ℤ)
  | overbidding
  | atCeiling
  | normalQuote
  | overexposed
deriving DecidableEq

/-- One leg's outcome of `update_quotes`: target price (sentinel `-2` for a
gated leg, `-1` for back-off) and the reason recorded with it. -/
structure LegQuote where
  price : Option ℤ
  reason : QReason
deriving DecidableEq

/-- The non-rebalance path for the B-YES leg (src/dashboard.py, lines
1052-1066): quote from `theo_b` when inventory allows going long B, else the
gated sentinel `-2`. -/
def b_yes_normal (s : UQState) : LegQuote :=
  if s.inventory > -s.inv_max then
    let p := calculate_adaptive_price s.theo_b s.book_b.best_bid s.book_b.second_bid
      .bid s.edge s.b_yes_cur true s.b_yes_retest s.book_b.best_bid_qty s.contracts
    { price := p
      reason := if p = some (-1) then .overbidding
        else if p = some (pyInt (s.theo_b - s.edge)) then .atCeiling
        else .normalQuote }
  else { price := some (-2), reason := .overexposed }

/-- The B-YES leg of `update_quotes` (src/dashboard.py, lines 1037-1066):
when `rebalance_ceiling_b` is set and exceeds `theo_b - edge`, the leg is
priced from the elevated effective theo `rebalance_ceiling_b + edge`
("rebal" reasons); otherwise it follows the normal path. -/
def b_yes_quote (s : UQState) : LegQuote :=
  match rebalance_ceiling_b s with
  | some r =>
    if (r : ℚ) > s.theo_b - s.edge then
      let p := calculate_adaptive_price ((r : ℚ) + s.edge) s.book_b.best_bid
        s.book_b.second_bid .bid s.edge s.b_yes_cur true s.b_yes_retest
        s.book_b.best_bid_qty s.contracts
      { price := p
        reason := if p = some (-1) then .rebalUnprofitable else .rebalCeiling r }
    else b_yes_normal s
  | none => b_yes_normal s

/-- The non-rebalance path for the A-NO leg (src/dashboard.py, lines
1082-1096): quotes the NO side of market A from `theo_b`. -/
def a_no_normal (s : UQState) : LegQuote :=
  if s.inventory > -s.inv_max then
    let p := calculate_adaptive_price s.theo_b s.book_a.best_no_bid
      s.book_a.second_no_bid .bid s.edge s.a_no_cur true s.a_no_retest
      s.book_a.best_no_bid_qty s.contracts
    { price := p
      reason := if p = some (-1) then .overbidding
        else if p = some (pyInt (s.theo_b - s.edge)) then .atCeiling
        else .normalQuote }
  else { price := some (-2), reason := .overexposed }

/-- The A-NO leg of `update_quotes` (src/dashboard.py, lines 1068-1096): the
second long-B leg, priced from the same `rebalance_ceiling_b` trigger. -/
def a_no_quote (s : UQState) : LegQuote :=
  match rebalance_ceiling_b s with
  | some r =>
    if (r : ℚ) > s.theo_b - s.edge then
      let p := calculate_adaptive_price ((r : ℚ) + s.edge) s.book_a.best_no_bid
        s.book_a.second_no_bid .bid s.edge s.a_no_cur true s.a_no_retest
        s.book_a.best_no_bid_qty s.contracts
      { price := p
        reason := if p = some (-1) then .rebalUnprofitable else .rebalCeiling r }
    else a_no_normal s
  | none => a_no_normal s

/-- Whether a leg was priced through the rebalance branch. -/
def isRebalReason : QReason → Bool
  | .rebalUnprofitable => true
  | .rebalCeiling _ => true
  | _ => false

lemma b_yes_normal_not_rebal (s : UQState) :
    isRebalReason (b_yes_normal s).reason = false := by
  simp only [b_yes_normal]
  split_ifs <;> rfl

lemma a_no_normal_not_rebal (s : UQState) :
    isRebalReason (a_no_normal s).reason = false := by
  simp only [a_no_normal]
  split_ifs <;> rfl

/-- A quote-evaluation state with `count_long_a = 1` but `cost_long_a = 0`:
the code's `avg_cost_a > 0` guard then yields `breakeven_for_b = 0` and no
rebalance, while the claim's formula predicts `99 - 0 - 2 = 97` and an
elevated long-B theo. -/
def rebalCounterState : UQState :=
  { theo_a := 60, theo_b := 40, edge := 3, contracts := 5
    inventory := 15, inv_max := 15
    cost_long_a := 0, count_long_a := 1, cost_long_b := 0, count_long_b := 0
    book_a := ⟨30, 20, 10, 30, 20, 10⟩, book_b := ⟨50, 40, 10, 30, 20, 10⟩
    b_yes_cur := none, a_no_cur := none
    b_yes_retest := false, a_no_retest := false }

/-- C5 counterexample: with `count_long_a = 1 > 0`, `cost_long_a = 0`, and
inventory at the long-A cap, `update_quotes` computes `breakeven_for_b = 0`
(not the claim's `99 - ceil(avg_cost_A) - FEE_BUFFER = 97`), and even though
the claim's trigger `breakeven_for_B > theo_B - edge` would hold for the
claimed value (97 > 37), the B-YES leg is priced down the normal path, not
with an elevated theo. -/
theorem C5_counterexample :
    0 < rebalCounterState.count_long_a ∧
      rebalCounterState.inv_max ≤ rebalCounterState.inventory ∧
      breakeven_for_b rebalCounterState
        ≠ 99 - ⌈(rebalCounterState.cost_long_a : ℚ) / (rebalCounterState.count_long_a : ℚ)⌉
            - REBAL_FEE_BUFFER_CENTS ∧
      isRebalReason (b_yes_quote rebalCounterState).reason = false := by
  have h1 : avg_cost_a rebalCounterState = 0 := by
    norm_num [avg_cost_a, rebalCounterState]
  have h2 : breakeven_for_b rebalCounterState = 0 := by
    rw [breakeven_for_b, h1]
    norm_num
  refine ⟨by norm_num [rebalCounterState], by norm_num [rebalCounterState], ?_, ?_⟩
  · rw [h2]
    norm_num [rebalCounterState, REBAL_FEE_BUFFER_CENTS]
  · have h3 : rebalance_ceiling_b rebalCounterState = none := by
      rw [rebalance_ceiling_b, if_neg]
      intro hcontra
      rw [h2] at hcontra
      exact absurd hcontra.2 (by norm_num)
    simp only [b_yes_quote, h3]
    exact b_yes_normal_not_rebal _

/-- C5 amended: in a quote evaluation with `count_long_A > 0` AND
`cost_long_A > 0`, the rebalance breakeven for the long-B side equals
`99 - ceil(avg_cost_A) - FEE_BUFFER` with `FEE_BUFFER = 2` (and symmetrically
for A); and both long-B legs (B-YES and A-NO) are priced with the elevated
effective theo `breakeven_for_B + edge` exactly when inventory is at or
beyond the long-A cap AND `breakeven_for_B > 0` AND
`breakeven_for_B > theo_B - edge` (the positivity guard is the correction the
code forces). -/
theorem C5_rebalance_breakeven (s : UQState) (hc : 0 < s.count_long_a)
    (hp : 0 < s.cost_long_a) :
    breakeven_for_b s
        = 99 - ⌈(s.cost_long_a : ℚ) / (s.count_long_a : ℚ)⌉ - REBAL_FEE_BUFFER_CENTS ∧
      (0 < s.count_long_b → 0 < s.cost_long_b →
        breakeven_for_a s
          = 99 - ⌈(s.cost_long_b : ℚ) / (s.count_long_b : ℚ)⌉ - REBAL_FEE_BUFFER_CENTS) ∧
      ((isRebalReason (b_yes_quote s).reason = true
          ∧ isRebalReason (a_no_quote s).reason = true)
        ↔ s.inv_max ≤ s.inventory ∧ 0 < breakeven_for_b s
            ∧ s.theo_b - s.edge < (breakeven_for_b s : ℚ)) ∧
      (s.inv_max ≤ s.inventory → 0 < breakeven_for_b s →
        s.theo_b - s.edge < (breakeven_for_b s : ℚ) →
        (b_yes_quote s).price
            = calculate_adaptive_price ((breakeven_for_b s : ℚ) + s.edge)
                s.book_b.best_bid s.book_b.second_bid .bid s.edge s.b_yes_cur true
                s.b_yes_retest s.book_b.best_bid_qty s.contracts
          ∧ (a_no_quote s).price
            = calculate_adaptive_price ((breakeven_for_b s : ℚ) + s.edge)
                s.book_a.best_no_bid s.book_a.second_no_bid .bid s.edge s.a_no_cur true
                s.a_no_retest s.book_a.best_no_bid_qty s.contracts) := by
  have havg : avg_cost_a s = (s.cost_long_a : ℚ) / (s.count_long_a : ℚ) := by
    unfold avg_cost_a
    rw [if_pos hc]
  have hpos : 0 < avg_cost_a s := by
    rw [havg]
    apply div_pos
    · exact_mod_cast hp
    · exact_mod_cast hc
  refine ⟨?_, fun hcb hpb => ?_, ?_, fun h1 h2 h3 => ?_⟩
  · unfold breakeven_for_b
    rw [if_pos hpos, havg]
    omega
  · have havgb : avg_cost_b s = (s.cost_long_b : ℚ) / (s.count_long_b : ℚ) := by
      unfold avg_cost_b
      rw [if_pos hcb]
    have hposb : 0 < avg_cost_b s := by
      rw [havgb]
      apply div_pos
      · exact_mod_cast hpb
      · exact_mod_cast hcb
    unfold breakeven_for_a
    rw [if_pos hposb, havgb]
    omega
  · constructor
    · rintro ⟨hb, _⟩
      cases hrc : rebalance_ceiling_b s with
      | none =>
        simp only [b_yes_quote, hrc] at hb
        rw [b_yes_normal_not_rebal] at hb
        cases hb
      | some r =>
        have hr : s.inv_max ≤ s.inventory ∧ 0 < breakeven_for_b s
            ∧ breakeven_for_b s = r := by
          unfold rebalance_ceiling_b at hrc
          split_ifs at hrc with hgate
          injection hrc with hval
          exact ⟨hgate.1, hgate.2, hval⟩
        by_cases hgt : (r : ℚ) > s.theo_b - s.edge
        · exact ⟨hr.1, hr.2.1, by rw [hr.2.2]; exact hgt⟩
        · simp only [b_yes_quote, hrc, if_neg hgt] at hb
          rw [b_yes_normal_not_rebal] at hb
          cases hb
    · rintro ⟨h1, h2, h3⟩
      have hrc : rebalance_ceiling_b s = some (breakeven_for_b s) := by
        unfold rebalance_ceiling_b
        rw [if_pos ⟨h1, h2⟩]
      constructor
      · simp only [b_yes_quote, hrc, if_pos h3]
        split_ifs <;> rfl
      · simp only [a_no_quote, hrc, if_pos h3]
        split_ifs <;> rfl
  · have hrc : rebalance_ceiling_b s = some (breakeven_for_b s) := by
      unfold rebalance_ceiling_b
      rw [if_pos ⟨h1, h2⟩]
    constructor
    · simp only [b_yes_quote, hrc, if_pos h3]
    · simp only [a_no_quote, hrc, if_pos h3]

/-- A quote-evaluation state at the long-A cap with one long-A contract
bought at 50: `breakeven_for_b = 100 - 50 - 1 - 2 = 47 > theo_b - edge = 37`,
so the long-B legs rebalance. -/
def rebalWitnessState : UQState :=
  { theo_a := 60, theo_b := 40, edge := 3, contracts := 5
    inventory := 15, inv_max := 15
    cost_long_a := 50, count_long_a := 1, cost_long_b := 0, count_long_b := 0
    book_a := ⟨30, 20, 10, 30, 20, 10⟩, book_b := ⟨30, 20, 10, 30, 20, 10⟩
    b_yes_cur := none, a_no_cur := none
    b_yes_retest := false, a_no_retest := false }

theorem C5_rebalance_breakeven_witness :
    breakeven_for_b rebalWitnessState = 47 ∧
      isRebalReason (b_yes_quote rebalWitnessState).reason = true := by
  have hc : (0 : ℤ) < rebalWitnessState.count_long_a := by
    norm_num [rebalWitnessState]
  have hp : (0 : ℤ) < rebalWitnessState.cost_long_a := by
    norm_num [rebalWitnessState]
  have h := C5_rebalance_breakeven rebalWitnessState hc hp
  have hbk : breakeven_for_b rebalWitnessState = 47 := by
    rw [h.1]
    norm_num [rebalWitnessState, REBAL_FEE_BUFFER_CENTS]
  refine ⟨hbk, ?_⟩
  exact (h.2.2.1.mpr ⟨by norm_num [rebalWitnessState], by rw [hbk]; norm_num,
    by rw [hbk]; norm_num [rebalWitnessState]⟩).1

theorem C4_theo_sum_witness :
    (calculate_theo 2 1).a + (calculate_theo 2 1).b = 100 :=
  (C4_theo_sum 2 1 (by norm_num) (by norm_num)).2.2
